import Mathlib

/-!
Verification of the usePopcorn movie-search application.

The development shallowly embeds the parts of the source relevant to the
frozen claims:

* `src/useMovies.js` — the query-driven fetch lifecycle. The hook's three
  state cells (`movies`, `isLoading`, `error`) are the record `ResultState`;
  the single-threaded event loop that interleaves effect runs, effect
  cleanups and fetch completions is the step function `stepSys` over the
  system state `Sys`.
* `src/useLocalStorage.js` — the lazy initializer and the persist effect,
  over an executable model of `JSON.stringify` / `JSON.parse`.
* `src/App.js` — `average` and `handleDeleteWatched`.
-/

namespace UsePopcorn

/-- Entry of the `data.Search` array returned by the OMDb search endpoint
(the fields rendered by `Movie` in `App.js`). -/
structure SearchMovie where
  imdbID : String
  Title : String
  Year : String
  Poster : String
deriving DecidableEq, Repr

/-- State cells of `useMovies`: `const [movies, setMovies] = useState([])`,
`const [isLoading, setIsLoading] = useState(false)`,
`const [error, setError] = useState(null)`.  `error` is `Option String`
because it starts as `null` and is later set to strings. -/
structure ResultState where
  movies : List SearchMovie
  isLoading : Bool
  error : Option String
deriving DecidableEq, Repr

/-- Initial hook state: empty list, not loading, `null` error. -/
def initResult : ResultState := ⟨[], false, none⟩

/-- A JavaScript error value as observed by the `catch` block of
`fetchMovies`: its `name` and `message` properties. -/
structure JsError where
  name : String
  message : String
deriving DecidableEq, Repr

/-- Shape of a settled OMDb HTTP response as consumed by `fetchMovies`:
`response.ok`, `data.Response` and `data.Search`. -/
structure OmdbResponse where
  ok : Bool
  Response : String
  Search : List SearchMovie
deriving DecidableEq, Repr

/-- Result delivered to `fetchMovies` when its awaited fetch settles: either
a response object or a thrown/rejected error. -/
abbrev FetchResult := Except JsError OmdbResponse

/-- Decidable equality of fetch results, used for concrete evaluation. -/
def FetchResult.decEq : (a b : FetchResult) → Decidable (a = b)
  | Except.ok x, Except.ok y =>
    if h : x = y then isTrue (h ▸ rfl)
    else isFalse (fun hc => h (Except.ok.inj hc))
  | Except.ok _, Except.error _ => isFalse (fun hc => Except.noConfusion hc)
  | Except.error _, Except.ok _ => isFalse (fun hc => Except.noConfusion hc)
  | Except.error x, Except.error y =>
    if h : x = y then isTrue (h ▸ rfl)
    else isFalse (fun hc => h (Except.error.inj hc))

instance : DecidableEq FetchResult := FetchResult.decEq

/-- Model of the `catch (error) { if (error.name !== "AbortError")
setError(error.message); } finally { setIsLoading(false); }` suffix of
`fetchMovies` (useMovies.js lines 114-125). -/
def catchFinally (e : JsError) (s : ResultState) : ResultState :=
  { s with
    error := if e.name ≠ "AbortError" then some e.message else s.error
    isLoading := false }

/-- Model of the body of `fetchMovies` from the point its awaited fetch
settles (useMovies.js lines 90-125): a non-ok response throws
`"Something went wrong with fetching movies"`, a `Response: "False"` payload
throws `"Movie not found"`, otherwise `setMovies(data.Search)` runs; thrown
and rejected errors reach `catchFinally`. -/
def fetchMoviesSettle (result : FetchResult) (s : ResultState) : ResultState :=
  match result with
  | Except.ok resp =>
    if resp.ok = false then
      catchFinally ⟨"Error", "Something went wrong with fetching movies"⟩ s
    else if resp.Response = "False" then
      catchFinally ⟨"Error", "Movie not found"⟩ s
    else
      { s with movies := resp.Search, isLoading := false }
  | Except.error e => catchFinally e s

/-- Whole-system state of one `useMovies` controller instance: the hook's
`ResultState`, a generation counter minting one id per issued request
(each effect run's `new AbortController()` paired with its fetch), the id
of the request issued by the latest effect run whose cleanup has not run
(`live`), the ids of requests whose promise has not settled (`pending`),
the ids whose `controller.abort()` was called (`aborted`), and whether the
component is still mounted. -/
structure Sys where
  res : ResultState
  nextId : Nat
  live : Option Nat
  pending : List Nat
  aborted : List Nat
  mounted : Bool
deriving DecidableEq, Repr

/-- Initial system state: fresh hook state, no request issued, mounted. -/
def initSys : Sys :=
  { res := initResult, nextId := 0, live := none, pending := [], aborted := []
    mounted := true }

/-- Events on the single-threaded event loop: an effect re-run caused by a
query change, the settling of request `id`'s fetch promise with a given
result, and unmount (effect cleanup with no successor run). -/
inductive Event where
  | queryChange (q : String)
  | complete (id : Nat) (result : FetchResult)
  | teardown
deriving DecidableEq

/-- Cleanup function of the previous effect run (useMovies.js lines
142-144): `controller.abort()` on the previous run's controller.  A short
query's effect run returns early without registering a cleanup, which is
exactly the `live = none` case. -/
def abortLive (s : Sys) : Sys :=
  match s.live with
  | some n => { s with aborted := n :: s.aborted, live := none }
  | none => s

/-- Abort rejection delivered by `fetch` when its signal is aborted while
the promise is pending. -/
def abortError : JsError := ⟨"AbortError", "The user aborted a request."⟩

/-- Small-step semantics of one event-loop task.

`queryChange q`: React runs the previous effect's cleanup (`abortLive`),
then the effect body (useMovies.js lines 62-149): if `q.length < 3` it runs
`setMovies([]); setError(""); return;` issuing no request; otherwise it
calls `fetchMovies()`, which synchronously runs `setIsLoading(true);
setError("")` before suspending on `await fetch`, with a freshly minted
request id.

`complete id result`: the awaited fetch of a pending request settles.  Per
the `fetch`/`AbortController` contract, a pending promise whose signal was
aborted settles with an `AbortError` rejection regardless of what the
transport delivers, so for `id ∈ aborted` the delivered result is forced to
`abortError`.  React discards `setState` calls on an unmounted component,
so the writes apply only while `mounted`.

`teardown`: unmount; React runs the last cleanup (if one was registered)
and the component's state ceases to exist. -/
def stepSys (s : Sys) : Event → Sys
  | Event.queryChange q =>
    if s.mounted = false then s else
    let s1 := abortLive s
    if q.length < 3 then
      { s1 with res := { s1.res with movies := [], error := some "" } }
    else
      { s1 with
        res := { s1.res with isLoading := true, error := some "" }
        live := some s1.nextId
        pending := s1.nextId :: s1.pending
        nextId := s1.nextId + 1 }
  | Event.complete id result =>
    if id ∈ s.pending then
      let actual : FetchResult :=
        if id ∈ s.aborted then Except.error abortError else result
      { s with
        pending := s.pending.erase id
        res := if s.mounted then fetchMoviesSettle actual s.res else s.res }
    else s
  | Event.teardown =>
    let s1 := abortLive s
    { s1 with mounted := false }

/-- Run a sequence of event-loop tasks. -/
def runSys (s : Sys) (es : List Event) : Sys := es.foldl stepSys s

/-- Recognizer for completion events. -/
def isCompleteEv : Event → Bool
  | Event.complete _ _ => true
  | _ => false

/-- Recognizer for completion events of requests other than request `n`. -/
def isStaleComplete (n : Nat) : Event → Bool
  | Event.complete i _ => i != n
  | _ => false

/-- Every pending request except possibly `n` has been aborted. -/
def StaleOnly (s : Sys) (n : Nat) : Prop :=
  ∀ i ∈ s.pending, i = n ∨ i ∈ s.aborted

/-- Results that make `fetchMovies` take a non-cancellation failure path:
a non-ok HTTP status, the provider's `Response: "False"` convention, or a
thrown/rejected error other than an `AbortError` (JavaScript fetch
rejections carry a non-empty message). -/
def failingResult : FetchResult → Prop
  | Except.ok resp => resp.ok = false ∨ resp.Response = "False"
  | Except.error e => e.name ≠ "AbortError" ∧ e.message ≠ ""

instance (r : FetchResult) : Decidable (failingResult r) :=
  match r with
  | Except.ok resp =>
    (inferInstance : Decidable (resp.ok = false ∨ resp.Response = "False"))
  | Except.error e =>
    (inferInstance : Decidable (e.name ≠ "AbortError" ∧ e.message ≠ ""))

/-- Message `fetchMovies` stores via `setError` for a failing result. -/
def failMsg : FetchResult → String
  | Except.ok resp =>
    if resp.ok = false then "Something went wrong with fetching movies"
    else "Movie not found"
  | Except.error e => e.message

/-- Concrete search result used in counterexamples and witnesses. -/
def inception : SearchMovie :=
  { imdbID := "tt1375666", Title := "Inception", Year := "2010"
    Poster := "inception.jpg" }

/-- Model of `average` from App.js lines 36-37:
`arr.reduce((acc, cur, i, arr) => acc + cur / arr.length, 0)`.
JavaScript numbers are embedded as rationals; the fourth callback argument
is the whole array, so the divisor is the original length throughout the
fold. -/
def average (arr : List ℚ) : ℚ :=
  arr.foldl (fun acc cur => acc + cur / (arr.length : ℚ)) 0

/-- Entry of the watched list, as built by `handleAdd` in `MovieDetails`
(`runtime` stays the string produced by `runtime.split(" ").at(0)`). -/
structure WatchedMovie where
  imdbID : String
  title : String
  year : String
  poster : String
  imdbRating : ℚ
  userRating : ℚ
  runtime : String
  countRatingDecisions : Nat
deriving DecidableEq, Repr

/-- Model of `handleDeleteWatched` (App.js lines 121-123):
`setWatched((watched) => watched.filter((movie) => movie.imdbID !== id))`,
as the update function applied to the current list. -/
def handleDeleteWatched (id : String) (watched : List WatchedMovie) :
    List WatchedMovie :=
  watched.filter (fun movie => movie.imdbID != id)

/-- Average IMDb rating computed by `WatchedSummary` (App.js line 361). -/
def avgImdbRating (watched : List WatchedMovie) : ℚ :=
  average (watched.map fun movie => movie.imdbRating)

/-- Average user rating computed by `WatchedSummary` (App.js line 362). -/
def avgUserRating (watched : List WatchedMovie) : ℚ :=
  average (watched.map fun movie => movie.userRating)

/-! JSON model for `useLocalStorage`.  `JSON.stringify`/`JSON.parse` are
embedded executably over a JSON value type; JavaScript numbers are
represented as integers (decimal float formatting is outside the shallow
embedding), and serialization is the compact (no-whitespace) form that
`JSON.stringify` emits. -/

mutual
inductive Json where
  | null
  | bool (b : Bool)
  | num (n : Int)
  | str (s : String)
  | arr (elems : JsonList)
  | obj (fields : JsonFields)
inductive JsonList where
  | nil
  | cons (hd : Json) (tl : JsonList)
inductive JsonFields where
  | nil
  | cons (key : String) (val : Json) (tl : JsonFields)
end

/-- Decimal digit character. -/
def digitChar (n : Nat) : Char := Char.ofNat (48 + n)

/-- Lowercase hexadecimal digit character, as `JSON.stringify` emits in
`\u00XX` escapes. -/
def hexDigitChar (n : Nat) : Char :=
  if n < 10 then Char.ofNat (48 + n) else Char.ofNat (87 + n)

/-- Accumulator loop producing decimal digits, most significant first; the
fuel makes the definition structurally recursive and kernel-computable. -/
def natToCharsAux : Nat → Nat → List Char → List Char
  | 0, _, acc => acc
  | fuel+1, n, acc =>
    if n < 10 then digitChar n :: acc
    else natToCharsAux fuel (n / 10) (digitChar (n % 10) :: acc)

/-- Decimal digits of `n`, most significant first (`"0"` for zero), per the
integer case of JavaScript number-to-string. -/
def natToChars (n : Nat) : List Char := natToCharsAux (n + 1) n []

/-- Digit lists (most significant first) whose serialization `natToChars`
produces; used to run the digit parser over them. -/
def msbDigits (n : Nat) : List Nat :=
  if n = 0 then [0] else (Nat.digits 10 n).reverse

/-- Integer serialization: minus sign then decimal digits. -/
def intToChars (n : Int) : List Char :=
  if n < 0 then '-' :: natToChars n.natAbs else natToChars n.toNat

/-- Escaping of one character inside a JSON string literal, following
`JSON.stringify`: quote and backslash get a backslash escape, the named
control characters get their short escapes, the remaining control
characters get `\u00XX`, and everything else is emitted verbatim. -/
def escChar (c : Char) : List Char :=
  if c = '"' then ['\\', '"']
  else if c = '\\' then ['\\', '\\']
  else if c.toNat = 8 then ['\\', 'b']
  else if c.toNat = 9 then ['\\', 't']
  else if c.toNat = 10 then ['\\', 'n']
  else if c.toNat = 12 then ['\\', 'f']
  else if c.toNat = 13 then ['\\', 'r']
  else if c.toNat < 32 then
    ['\\', 'u', '0', '0', hexDigitChar (c.toNat / 16), hexDigitChar (c.toNat % 16)]
  else [c]

/-- Escaping of a whole string body. -/
def escapeChars : List Char → List Char
  | [] => []
  | c :: cs => escChar c ++ escapeChars cs

mutual
/-- Model of `JSON.stringify` (compact form), as a character list. -/
def jsonToChars : Json → List Char
  | Json.null => ['n', 'u', 'l', 'l']
  | Json.bool true => ['t', 'r', 'u', 'e']
  | Json.bool false => ['f', 'a', 'l', 's', 'e']
  | Json.num n => intToChars n
  | Json.str s => '"' :: (escapeChars s.data ++ ['"'])
  | Json.arr es => '[' :: (elemsToChars es ++ [']'])
  | Json.obj fs => '\x7b' :: (fieldsToChars fs ++ ['\x7d'])
def elemsToChars : JsonList → List Char
  | JsonList.nil => []
  | JsonList.cons e JsonList.nil => jsonToChars e
  | JsonList.cons e tl => jsonToChars e ++ ',' :: elemsToChars tl
def fieldsToChars : JsonFields → List Char
  | JsonFields.nil => []
  | JsonFields.cons k v JsonFields.nil =>
    '"' :: (escapeChars k.data ++ '"' :: ':' :: jsonToChars v)
  | JsonFields.cons k v tl =>
    ('"' :: (escapeChars k.data ++ '"' :: ':' :: jsonToChars v)) ++ ',' :: fieldsToChars tl
end

mutual
/-- Size driving the parser's fuel: enough steps to consume every node. -/
def jsize : Json → Nat
  | Json.null => 1
  | Json.bool _ => 1
  | Json.num _ => 1
  | Json.str _ => 1
  | Json.arr es => 2 + lsize es
  | Json.obj fs => 2 + fsize fs
def lsize : JsonList → Nat
  | JsonList.nil => 0
  | JsonList.cons e tl => 1 + jsize e + lsize tl
def fsize : JsonFields → Nat
  | JsonFields.nil => 0
  | JsonFields.cons _ v tl => 1 + jsize v + fsize tl
end

/-- Decimal digit test. -/
def isDigitCh (c : Char) : Bool := 48 ≤ c.toNat && c.toNat ≤ 57

/-- Input does not begin with a decimal digit (so a digit run before it is
maximal). -/
def noDigitStart : List Char → Bool
  | [] => true
  | c :: _ => !(isDigitCh c)

/-- Value of one hexadecimal digit character. -/
def hexVal (c : Char) : Option Nat :=
  if 48 ≤ c.toNat ∧ c.toNat ≤ 57 then some (c.toNat - 48)
  else if 97 ≤ c.toNat ∧ c.toNat ≤ 102 then some (c.toNat - 87)
  else if 65 ≤ c.toNat ∧ c.toNat ≤ 70 then some (c.toNat - 55)
  else none

/-- Decoding of a single-character escape. -/
def escDecode (d : Char) : Option Char :=
  if d = '"' then some '"'
  else if d = '\\' then some '\\'
  else if d = '/' then some '/'
  else if d = 'b' then some (Char.ofNat 8)
  else if d = 't' then some (Char.ofNat 9)
  else if d = 'n' then some (Char.ofNat 10)
  else if d = 'f' then some (Char.ofNat 12)
  else if d = 'r' then some (Char.ofNat 13)
  else none

/-- String-literal body parser (after the opening quote): collects
characters until the closing quote, decoding escapes. -/
def parseStringBody : Nat → List Char → Option (List Char × List Char)
  | 0, _ => none
  | fuel+1, cs =>
    match cs with
    | [] => none
    | c :: cs1 =>
      if c = '"' then some ([], cs1)
      else if c = '\\' then
        match cs1 with
        | [] => none
        | 'u' :: h1 :: h2 :: h3 :: h4 :: cs3 =>
          match hexVal h1, hexVal h2, hexVal h3, hexVal h4 with
          | some a, some b, some x, some y =>
            match parseStringBody fuel cs3 with
            | some (s, rest) =>
              some (Char.ofNat (((a * 16 + b) * 16 + x) * 16 + y) :: s, rest)
            | none => none
          | _, _, _, _ => none
        | d :: cs2 =>
          match escDecode d with
          | some c2 =>
            match parseStringBody fuel cs2 with
            | some (s, rest) => some (c2 :: s, rest)
            | none => none
          | none => none
      else
        match parseStringBody fuel cs1 with
        | some (s, rest) => some (c :: s, rest)
        | none => none

/-- String-literal body parser with enough fuel for its input. -/
def parseString (cs : List Char) : Option (List Char × List Char) :=
  parseStringBody (cs.length + 1) cs

/-- Digit-run parser accumulating a decimal value; stops at the first
non-digit. -/
def parseNatAcc : Nat → List Char → Nat → (Nat × List Char)
  | 0, cs, acc => (acc, cs)
  | fuel+1, cs, acc =>
    match cs with
    | [] => (acc, [])
    | c :: cs1 =>
      if isDigitCh c then parseNatAcc fuel cs1 (acc * 10 + (c.toNat - 48))
      else (acc, c :: cs1)

/-- Array-element loop of the JSON parser: parses a value with `p`, then
either a comma and more elements or the closing bracket. -/
def parseElemsAux (p : List Char → Option (Json × List Char)) :
    Nat → List Char → Option (JsonList × List Char)
  | 0, _ => none
  | fuel+1, cs =>
    match p cs with
    | some (v, ',' :: rest2) =>
      match parseElemsAux p fuel rest2 with
      | some (es, rest3) => some (JsonList.cons v es, rest3)
      | none => none
    | some (v, ']' :: rest2) => some (JsonList.cons v JsonList.nil, rest2)
    | _ => none

/-- Object-member loop of the JSON parser: parses a quoted key, a colon, a
value with `p`, then either a comma and more members or the closing
brace. -/
def parseFieldsAux (p : List Char → Option (Json × List Char)) :
    Nat → List Char → Option (JsonFields × List Char)
  | 0, _ => none
  | fuel+1, cs =>
    match cs with
    | '"' :: cs1 =>
      match parseString cs1 with
      | some (k, ':' :: cs2) =>
        match p cs2 with
        | some (v, ',' :: rest2) =>
          match parseFieldsAux p fuel rest2 with
          | some (fs, rest3) => some (JsonFields.cons ⟨k⟩ v fs, rest3)
          | none => none
        | some (v, d :: rest2) =>
          if d = '\x7d' then some (JsonFields.cons ⟨k⟩ v JsonFields.nil, rest2)
          else none
        | _ => none
      | _ => none
    | _ => none

/-- Recursive-descent JSON value parser (fuel-indexed so that every
function in the development is executable by kernel reduction).  It
accepts the compact serializations `jsonToChars` produces. -/
def parseVal : Nat → List Char → Option (Json × List Char)
  | 0, _ => none
  | fuel+1, cs =>
    match cs with
    | [] => none
    | c :: cs1 =>
      if c = 'n' then
        match cs1 with
        | 'u' :: 'l' :: 'l' :: rest => some (Json.null, rest)
        | _ => none
      else if c = 't' then
        match cs1 with
        | 'r' :: 'u' :: 'e' :: rest => some (Json.bool true, rest)
        | _ => none
      else if c = 'f' then
        match cs1 with
        | 'a' :: 'l' :: 's' :: 'e' :: rest => some (Json.bool false, rest)
        | _ => none
      else if c = '"' then
        match parseString cs1 with
        | some (s, rest) => some (Json.str ⟨s⟩, rest)
        | none => none
      else if c = '[' then
        match cs1 with
        | [] => none
        | d :: tl =>
          if d = ']' then some (Json.arr JsonList.nil, tl)
          else
            match parseElemsAux (parseVal fuel) fuel (d :: tl) with
            | some (es, rest) => some (Json.arr es, rest)
            | none => none
      else if c = '\x7b' then
        match cs1 with
        | [] => none
        | d :: tl =>
          if d = '\x7d' then some (Json.obj JsonFields.nil, tl)
          else
            match parseFieldsAux (parseVal fuel) fuel (d :: tl) with
            | some (fs, rest2) => some (Json.obj fs, rest2)
            | none => none
      else if c = '-' then
        match cs1 with
        | d :: _ =>
          if isDigitCh d then
            match parseNatAcc (cs1.length + 1) cs1 0 with
            | (n, rest) => some (Json.num (-(n : Int)), rest)
          else none
        | [] => none
      else if isDigitCh c then
        match parseNatAcc (cs.length + 1) cs 0 with
        | (n, rest) => some (Json.num (n : Int), rest)
      else none

/-- Model of `JSON.stringify` on our JSON values. -/
def jstringify (v : Json) : String := ⟨jsonToChars v⟩

/-- Fuel bound used by `jparse`: twice the input length plus one always
suffices for inputs produced by `jstringify`. -/
def jfuel (s : String) : Nat := 2 * s.data.length + 1

/-- Model of `JSON.parse`: parses one value and requires the whole input to
be consumed; `none` models the exception thrown on invalid input. -/
def jparse (s : String) : Option Json :=
  match parseVal (jfuel s) s.data with
  | some (v, []) => some v
  | _ => none

/-- Browser `localStorage` model: a partial map from keys to strings;
`getItem` returns `null` (here `none`) for an absent key. -/
def setItem (store : String → Option String) (key value : String) :
    String → Option String :=
  fun k => if k = key then some value else store k

/-- Model of the lazy initializer of `useLocalStorage` (lines 60-67):
`const storedValue = localStorage.getItem(key); return storedValue ?
JSON.parse(storedValue) : initialState;`.  JavaScript truthiness makes both
`null` and the empty string fall back to `initialState`; a `JSON.parse`
exception is modelled by `none`. -/
def useLocalStorageInit (store : String → Option String) (key : String)
    (initialState : Json) : Option Json :=
  match store key with
  | some stored => if stored = "" then some initialState else jparse stored
  | none => some initialState

/-- Model of the persist effect of `useLocalStorage` (lines 83-92):
`localStorage.setItem(key, JSON.stringify([...value]))`.  The spread
`[...value]` of an array value is a shallow copy with the same elements, so
for array states the stored string is `JSON.stringify` of the same array. -/
def useLocalStoragePersist (store : String → Option String) (key : String)
    (value : JsonList) : String → Option String :=
  setItem store key (jstringify (Json.arr value))

/-- Concrete watched-list value (one movie record) used in the persistence
witness. -/
def watchedSample : JsonList :=
  JsonList.cons
    (Json.obj
      (JsonFields.cons "imdbID" (Json.str "tt1375666")
        (JsonFields.cons "title" (Json.str "Inception")
          (JsonFields.cons "userRating" (Json.num 9)
            (JsonFields.cons "runtime" (Json.str "148") JsonFields.nil)))))
    JsonList.nil

/-- Structural invariant of reachable system states: minted ids are below
the generation counter, and every pending request other than the live one
has been aborted (the invalidate-before-issue discipline). -/
def Inv (s : Sys) : Prop :=
  (∀ i ∈ s.pending, i < s.nextId) ∧
  (∀ i ∈ s.aborted, i < s.nextId) ∧
  (∀ i ∈ s.pending, s.live = some i ∨ i ∈ s.aborted) ∧
  (match s.live with
   | some n => n < s.nextId ∧ n ∉ s.aborted
   | none => True)

instance (s : Sys) : Decidable (Inv s) := by
  unfold Inv
  cases s.live <;> exact inferInstance

theorem inv_init : Inv initSys := by decide

theorem abortLive_live (s : Sys) : (abortLive s).live = none := by
  unfold abortLive
  cases hl : s.live with
  | none => rw [hl]
  | some m => rfl

theorem abortLive_fields (s : Sys) :
    (abortLive s).pending = s.pending ∧ (abortLive s).nextId = s.nextId ∧
    (abortLive s).res = s.res ∧ (abortLive s).mounted = s.mounted := by
  unfold abortLive
  cases hl : s.live with
  | none => exact ⟨rfl, rfl, rfl, rfl⟩
  | some m => exact ⟨rfl, rfl, rfl, rfl⟩

/-- Effect run for a short query (useMovies.js lines 131-135): the cleanup
of the previous run fires, then `setMovies([]); setError(""); return;`. -/
theorem stepSys_query_short (s : Sys) (q : String) (hm : s.mounted = true)
    (hq : q.length < 3) :
    stepSys s (Event.queryChange q) =
      { abortLive s with
        res := { (abortLive s).res with movies := [], error := some "" } } := by
  simp only [stepSys, hm]
  rw [if_neg (by simp), if_pos hq]

/-- Effect run for a qualifying query: the cleanup of the previous run
fires, then `fetchMovies()` synchronously sets loading and clears the error
before suspending on its fetch, minting a fresh request. -/
theorem stepSys_query_long (s : Sys) (q : String) (hm : s.mounted = true)
    (hq : ¬ q.length < 3) :
    stepSys s (Event.queryChange q) =
      { abortLive s with
        res := { (abortLive s).res with isLoading := true, error := some "" }
        live := some s.nextId
        pending := s.nextId :: s.pending
        nextId := s.nextId + 1 } := by
  simp only [stepSys, hm]
  rw [if_neg (by simp), if_neg hq, (abortLive_fields s).1, (abortLive_fields s).2.1]

theorem inv_abortLive (s : Sys) (h : Inv s) : Inv (abortLive s) := by
  obtain ⟨h1, h2, h3, h4⟩ := h
  unfold Inv abortLive
  cases hl : s.live with
  | none => rw [hl]; rw [hl] at h3; exact ⟨h1, h2, h3, trivial⟩
  | some m =>
    rw [hl] at h3 h4
    refine ⟨h1, ?_, ?_, trivial⟩
    · intro i hi
      rcases List.mem_cons.mp hi with hv | hv
      · exact hv ▸ h4.1
      · exact h2 i hv
    · intro i hi
      rcases h3 i hi with hv | hv
      · exact Or.inr (List.mem_cons.mpr (Or.inl (by injection hv with h; exact h.symm)))
      · exact Or.inr (List.mem_cons.mpr (Or.inr hv))

theorem inv_step (s : Sys) (e : Event) (h : Inv s) : Inv (stepSys s e) := by
  cases e with
  | queryChange q =>
    cases hmb : s.mounted with
    | false => simpa [stepSys, hmb] using h
    | true =>
      obtain ⟨g1, g2, g3, _⟩ := inv_abortLive s h
      have hlive := abortLive_live s
      have hpend := (abortLive_fields s).1
      have hnext := (abortLive_fields s).2.1
      by_cases hq : q.length < 3
      · rw [stepSys_query_short s q hmb hq]
        exact inv_abortLive s h
      · rw [stepSys_query_long s q hmb hq]
        rw [hlive] at g3
        rw [hpend] at g1 g3
        rw [hnext] at g1 g2
        unfold Inv
        refine ⟨?_, ?_, ?_, ?_⟩ <;> dsimp only
        · intro i hi
          rcases List.mem_cons.mp hi with hv | hv
          · omega
          · exact Nat.lt_succ_of_lt (g1 i hv)
        · exact fun i hi => Nat.lt_succ_of_lt (g2 i hi)
        · intro i hi
          rcases List.mem_cons.mp hi with hv | hv
          · exact Or.inl (by rw [hv])
          · exact Or.inr ((g3 i hv).resolve_left (by simp))
        · exact ⟨Nat.lt_succ_self _, fun hc => Nat.lt_irrefl _ (g2 _ hc)⟩
  | complete i r =>
    obtain ⟨h1, h2, h3, h4⟩ := h
    by_cases hp : i ∈ s.pending
    · simp only [stepSys, hp, if_true]
      exact ⟨fun j hj => h1 j (List.mem_of_mem_erase hj), h2,
        fun j hj => h3 j (List.mem_of_mem_erase hj), h4⟩
    · simpa [stepSys, hp] using ⟨h1, h2, h3, h4⟩
  | teardown =>
    exact inv_abortLive s h

theorem inv_run (s : Sys) (es : List Event) (h : Inv s) : Inv (runSys s es) := by
  induction es generalizing s with
  | nil => exact h
  | cons e es ih => exact ih _ (inv_step s e h)

/-- Every completion path of `fetchMovies` ends in the `finally` clause
setting `isLoading` to `false`. -/
theorem fetchMoviesSettle_isLoading (r : FetchResult) (s : ResultState) :
    (fetchMoviesSettle r s).isLoading = false := by
  cases r with
  | ok resp =>
    by_cases h1 : resp.ok = false <;> by_cases h2 : resp.Response = "False" <;>
      simp [fetchMoviesSettle, catchFinally, h1, h2]
  | error e => simp [fetchMoviesSettle, catchFinally]

/-- The `movies` and `error` cells written by a completing request depend
only on the result and on the previous `movies`/`error` cells. -/
theorem fetchMoviesSettle_congr (r : FetchResult) (s t : ResultState)
    (hm : s.movies = t.movies) (he : s.error = t.error) :
    (fetchMoviesSettle r s).movies = (fetchMoviesSettle r t).movies ∧
    (fetchMoviesSettle r s).error = (fetchMoviesSettle r t).error := by
  cases r with
  | ok resp =>
    by_cases h1 : resp.ok = false <;> by_cases h2 : resp.Response = "False" <;>
      simp [fetchMoviesSettle, catchFinally, h1, h2, hm, he]
  | error e =>
    by_cases h : e.name = "AbortError" <;>
      simp [fetchMoviesSettle, catchFinally, h, hm, he]

theorem ResultState.ext' (a b : ResultState) (h1 : a.movies = b.movies)
    (h2 : a.isLoading = b.isLoading) (h3 : a.error = b.error) : a = b := by
  cases a; cases b; simp_all

/-- A failing completion stores the corresponding message (always
non-empty) and clears only the loading flag; `setMovies` is not reached. -/
theorem fetchMoviesSettle_failing (r : FetchResult) (s : ResultState)
    (hr : failingResult r) :
    fetchMoviesSettle r s = { s with error := some (failMsg r), isLoading := false } ∧
    failMsg r ≠ "" := by
  cases r with
  | ok resp =>
    rcases hr with hok | hnf
    · simp [fetchMoviesSettle, catchFinally, failMsg, hok]
    · by_cases hok : resp.ok = false <;>
        simp [fetchMoviesSettle, catchFinally, failMsg, hok, hnf]
  | error e =>
    simp [fetchMoviesSettle, catchFinally, failMsg, hr.1, hr.2]

/-- Completion of an aborted pending request settles with `AbortError`
(the `fetch` contract), so the `catch` skips `setError`, and the `finally`
clears the loading flag if the component is still mounted. -/
theorem stepSys_complete_aborted (s : Sys) (i : Nat) (r : FetchResult)
    (h : i ∈ s.aborted) :
    (stepSys s (Event.complete i r)).res =
      if i ∈ s.pending ∧ s.mounted = true then { s.res with isLoading := false }
      else s.res := by
  by_cases hp : i ∈ s.pending
  · cases hmb : s.mounted <;>
      simp [stepSys, hp, h, hmb, fetchMoviesSettle, catchFinally, abortError]
  · simp [stepSys, hp]

theorem stepSys_complete_fields (s : Sys) (i : Nat) (r : FetchResult) :
    (stepSys s (Event.complete i r)).aborted = s.aborted ∧
    (stepSys s (Event.complete i r)).live = s.live ∧
    (stepSys s (Event.complete i r)).nextId = s.nextId ∧
    (stepSys s (Event.complete i r)).mounted = s.mounted := by
  by_cases hp : i ∈ s.pending <;> simp [stepSys, hp]

theorem stepSys_complete_pending_subset (s : Sys) (i : Nat) (r : FetchResult)
    (j : Nat) (hj : j ∈ (stepSys s (Event.complete i r)).pending) :
    j ∈ s.pending := by
  by_cases hp : i ∈ s.pending
  · simp only [stepSys, hp, if_true] at hj
    exact List.mem_of_mem_erase hj
  · simpa [stepSys, hp] using hj

/-- One event-loop step by a completion of a request other than `n`, in a
state where all pending requests except `n` are aborted, leaves the
`movies` and `error` cells untouched and at most clears the loading flag. -/
theorem stale_step_preserves (s : Sys) (n : Nat) (e : Event)
    (hst : StaleOnly s n) (he : isStaleComplete n e = true) :
    (stepSys s e).res.movies = s.res.movies ∧
    (stepSys s e).res.error = s.res.error ∧
    ((stepSys s e).res.isLoading = false ∨
      (stepSys s e).res.isLoading = s.res.isLoading) ∧
    StaleOnly (stepSys s e) n ∧
    (stepSys s e).aborted = s.aborted ∧
    (stepSys s e).mounted = s.mounted ∧
    (n ∈ s.pending → n ∈ (stepSys s e).pending) := by
  cases e with
  | queryChange q => cases he
  | teardown => cases he
  | complete i r =>
    have hin : i ≠ n := by simpa [isStaleComplete] using he
    have hfields := stepSys_complete_fields s i r
    have hstale : StaleOnly (stepSys s (Event.complete i r)) n := by
      intro j hj
      exact (hfields.1 ▸ hst j (stepSys_complete_pending_subset s i r j hj))
    by_cases hp : i ∈ s.pending
    · have hia : i ∈ s.aborted := (hst i hp).resolve_left hin
      have hres := stepSys_complete_aborted s i r hia
      refine ⟨?_, ?_, ?_, hstale, hfields.1, hfields.2.2.2, ?_⟩
      · rw [hres]; by_cases hc : i ∈ s.pending ∧ s.mounted = true <;> simp [hc]
      · rw [hres]; by_cases hc : i ∈ s.pending ∧ s.mounted = true <;> simp [hc]
      · rw [hres]; by_cases hc : i ∈ s.pending ∧ s.mounted = true <;> simp [hc]
      · intro hn
        simp only [stepSys, hp, if_true]
        exact (List.mem_erase_of_ne (Ne.symm hin)).mpr hn
    · refine ⟨?_, ?_, ?_, hstale, hfields.1, hfields.2.2.2, ?_⟩ <;>
        simp [stepSys, hp]

/-- Run of stale completions: `movies` and `error` survive untouched, a
cleared loading flag stays cleared, and request `n` stays pending and
unaborted. -/
theorem stale_run_preserves (cs : List Event) : ∀ (s : Sys) (n : Nat),
    StaleOnly s n → n ∉ s.aborted →
    (∀ e ∈ cs, isStaleComplete n e = true) →
    (runSys s cs).res.movies = s.res.movies ∧
    (runSys s cs).res.error = s.res.error ∧
    (s.res.isLoading = false → (runSys s cs).res.isLoading = false) ∧
    StaleOnly (runSys s cs) n ∧
    (runSys s cs).aborted = s.aborted ∧
    (runSys s cs).mounted = s.mounted ∧
    (n ∈ s.pending → n ∈ (runSys s cs).pending) := by
  induction cs with
  | nil => exact fun s n hst hna _ => ⟨rfl, rfl, fun h => h, hst, rfl, rfl, fun h => h⟩
  | cons e cs ih =>
    intro s n hst hna hcs
    have hstep := stale_step_preserves s n e hst
      (hcs e (List.mem_cons_self e cs))
    have hna' : n ∉ (stepSys s e).aborted := hstep.2.2.2.2.1 ▸ hna
    have htail := ih (stepSys s e) n hstep.2.2.2.1 hna'
      (fun e' he' => hcs e' (List.mem_cons_of_mem e he'))
    refine ⟨htail.1.trans hstep.1, htail.2.1.trans hstep.2.1, ?_,
      htail.2.2.2.1, htail.2.2.2.2.1.trans hstep.2.2.2.2.1,
      htail.2.2.2.2.2.1.trans hstep.2.2.2.2.2.1, ?_⟩
    · intro hl
      apply htail.2.2.1
      rcases hstep.2.2.1 with hv | hv
      · exact hv
      · exact hv.trans hl
    · exact fun hn => htail.2.2.2.2.2.2 (hstep.2.2.2.2.2.2 hn)

theorem runSys_append (s : Sys) (l1 l2 : List Event) :
    runSys s (l1 ++ l2) = runSys (runSys s l1) l2 :=
  List.foldl_append stepSys s l1 l2

theorem runSys_cons (s : Sys) (e : Event) (l : List Event) :
    runSys s (e :: l) = runSys (stepSys s e) l := rfl

/-- Completions delivered after unmount are discarded by React: the hook
state no longer exists, so `setState` calls are no-ops. -/
theorem unmounted_step (s : Sys) (e : Event) (hm : s.mounted = false)
    (he : isCompleteEv e = true) :
    (stepSys s e).res = s.res ∧ (stepSys s e).mounted = false := by
  cases e with
  | queryChange q => cases he
  | teardown => cases he
  | complete i r =>
    by_cases hp : i ∈ s.pending <;> simp [stepSys, hp, hm]

theorem unmounted_run (cs : List Event) (s : Sys) (hm : s.mounted = false)
    (hcs : ∀ e ∈ cs, isCompleteEv e = true) :
    (runSys s cs).res = s.res := by
  induction cs generalizing s with
  | nil => rfl
  | cons e cs ih =>
    have hstep := unmounted_step s e hm (hcs e (List.mem_cons_self e cs))
    rw [runSys_cons]
    rw [ih (stepSys s e) hstep.2 (fun e' he' => hcs e' (List.mem_cons_of_mem e he'))]
    exact hstep.1

/-- C1: after any prefix of events, a query change to a qualifying query
`q` mints request `n`; however the completions of superseded requests
interleave around `n`'s completion, the final `ResultState` is exactly the
one obtained by applying `n`'s own completion to the state the effect run
for `q` produced — no completion belonging to a superseded (aborted)
request ever overwrites state written for the later query. -/
theorem useMovies_last_query_wins (es cs1 cs2 : List Event) (q : String)
    (r : FetchResult) (hq : 3 ≤ q.length)
    (hm : (runSys initSys es).mounted = true)
    (h1 : ∀ e ∈ cs1, isStaleComplete (runSys initSys es).nextId e = true)
    (h2 : ∀ e ∈ cs2, isStaleComplete (runSys initSys es).nextId e = true) :
    (runSys (stepSys (runSys initSys es) (Event.queryChange q))
        (cs1 ++ Event.complete (runSys initSys es).nextId r :: cs2)).res =
      fetchMoviesSettle r
        (stepSys (runSys initSys es) (Event.queryChange q)).res := by
  have hInv := inv_run initSys es inv_init
  have hql : ¬ q.length < 3 := by omega
  have hstep := stepSys_query_long (runSys initSys es) q hm hql
  set s0 := runSys initSys es with hs0def
  set n := s0.nextId with hndef
  set s1 := stepSys s0 (Event.queryChange q) with hs1def
  have hs1p : s1.pending = n :: s0.pending := by rw [hstep]
  have hs1a : s1.aborted = (abortLive s0).aborted := by rw [hstep]
  have hs1r : s1.res = { s0.res with isLoading := true, error := some "" } := by
    rw [hstep]
    show { (abortLive s0).res with isLoading := true, error := some "" } = _
    rw [(abortLive_fields s0).2.2.1]
  have hs1m : s1.mounted = true := by
    rw [hstep]
    show (abortLive s0).mounted = true
    rw [(abortLive_fields s0).2.2.2]; exact hm
  have hnab : n ∉ s1.aborted := by
    rw [hs1a]
    intro hc
    have hlt := (inv_abortLive s0 hInv).2.1 n hc
    rw [(abortLive_fields s0).2.1] at hlt
    exact Nat.lt_irrefl n hlt
  have hst : StaleOnly s1 n := by
    intro i hi
    rw [hs1p] at hi
    rcases List.mem_cons.mp hi with hv | hv
    · exact Or.inl hv
    · right
      have h3 := (inv_abortLive s0 hInv).2.2.1
      rw [(abortLive_fields s0).1] at h3
      rcases h3 i hv with hv2 | hv2
      · rw [abortLive_live s0] at hv2; cases hv2
      · rw [hs1a]; exact hv2
  have hn1p : n ∈ s1.pending := by rw [hs1p]; exact List.mem_cons_self n _
  rw [runSys_append, runSys_cons]
  have stale1 := stale_run_preserves cs1 s1 n hst hnab h1
  set s2 := runSys s1 cs1 with hs2def
  have hn2p : n ∈ s2.pending := stale1.2.2.2.2.2.2 hn1p
  have hn2a : n ∉ s2.aborted := stale1.2.2.2.2.1 ▸ hnab
  have hs2m : s2.mounted = true := stale1.2.2.2.2.2.1 ▸ hs1m
  have hcomp : (stepSys s2 (Event.complete n r)).res = fetchMoviesSettle r s2.res := by
    simp [stepSys, hn2p, hn2a, hs2m]
  set s3 := stepSys s2 (Event.complete n r) with hs3def
  have hst3 : StaleOnly s3 n := by
    intro j hj
    have hjp := stepSys_complete_pending_subset s2 n r j (hs3def ▸ hj)
    rcases stale1.2.2.2.1 j hjp with hv | hv
    · exact Or.inl hv
    · exact Or.inr (by rw [hs3def, (stepSys_complete_fields s2 n r).1]; exact hv)
  have hn3a : n ∉ s3.aborted := by
    rw [hs3def, (stepSys_complete_fields s2 n r).1]; exact hn2a
  have stale2 := stale_run_preserves cs2 s3 n hst3 hn3a h2
  have hcongr := fetchMoviesSettle_congr r s2.res s1.res stale1.1 stale1.2.1
  apply ResultState.ext'
  · rw [stale2.1, hcomp]
    exact hcongr.1
  · have hl3 : s3.res.isLoading = false := by
      rw [hcomp]; exact fetchMoviesSettle_isLoading r s2.res
    rw [stale2.2.2.1 hl3, fetchMoviesSettle_isLoading r s1.res]
  · rw [stale2.2.1, hcomp]
    exact hcongr.2

/-- Witness for C1: a first query "wxyz" whose request is superseded by
"abcd"; the superseded request's response arrives late, then the live one
succeeds; the final state is the live request's. -/
theorem useMovies_last_query_wins_witness :
    (runSys (stepSys (runSys initSys [Event.queryChange "wxyz"]) (Event.queryChange "abcd"))
        ([Event.complete 0 (Except.ok ⟨true, "True", []⟩)] ++
          Event.complete (runSys initSys [Event.queryChange "wxyz"]).nextId
            (Except.ok ⟨true, "True", [inception]⟩) ::
          [])).res =
      fetchMoviesSettle (Except.ok ⟨true, "True", [inception]⟩)
        (stepSys (runSys initSys [Event.queryChange "wxyz"]) (Event.queryChange "abcd")).res :=
  useMovies_last_query_wins [Event.queryChange "wxyz"] [Event.complete 0 (Except.ok ⟨true, "True", []⟩)]
    [] "abcd" (Except.ok ⟨true, "True", [inception]⟩) (by decide) (by decide)
    (by decide) (by decide)

/-- C2 counterexample: a qualifying query succeeds with one movie, a second
qualifying query then fails with the provider's "not found" convention; the
hook ends with a non-empty error but `movies` still holds the earlier
result — not the empty list. -/
theorem useMovies_failed_lookup_counterexample :
    (runSys initSys
        [Event.queryChange "abcd",
         Event.complete 0 (Except.ok ⟨true, "True", [inception]⟩),
         Event.queryChange "abcz",
         Event.complete 1 (Except.ok ⟨true, "False", []⟩)]).res.error =
      some "Movie not found" ∧
    (runSys initSys
        [Event.queryChange "abcd",
         Event.complete 0 (Except.ok ⟨true, "True", [inception]⟩),
         Event.queryChange "abcz",
         Event.complete 1 (Except.ok ⟨true, "False", []⟩)]).res.movies =
      [inception] ∧
    (runSys initSys
        [Event.queryChange "abcd",
         Event.complete 0 (Except.ok ⟨true, "True", [inception]⟩),
         Event.queryChange "abcz",
         Event.complete 1 (Except.ok ⟨true, "False", []⟩)]).res.movies ≠ [] := by
  decide

/-- C2 amended: a failing completion of the request minted for a
qualifying query leaves `error` set to a non-empty message and `isLoading`
false, while `movies` keeps its previous value (the code never clears the
movie list on failure). -/
theorem useMovies_failed_lookup_sets_error (es : List Event) (q : String)
    (r : FetchResult) (hq : 3 ≤ q.length)
    (hm : (runSys initSys es).mounted = true)
    (hr : failingResult r) :
    (stepSys (stepSys (runSys initSys es) (Event.queryChange q))
        (Event.complete (runSys initSys es).nextId r)).res =
      { movies := (runSys initSys es).res.movies
        isLoading := false
        error := some (failMsg r) } ∧
    failMsg r ≠ "" := by
  have hInv := inv_run initSys es inv_init
  have hql : ¬ q.length < 3 := by omega
  have hstep := stepSys_query_long (runSys initSys es) q hm hql
  set s0 := runSys initSys es with hs0def
  set n := s0.nextId with hndef
  set s1 := stepSys s0 (Event.queryChange q) with hs1def
  have hs1p : s1.pending = n :: s0.pending := by rw [hstep]
  have hs1a : s1.aborted = (abortLive s0).aborted := by rw [hstep]
  have hs1r : s1.res = { s0.res with isLoading := true, error := some "" } := by
    rw [hstep]
    show { (abortLive s0).res with isLoading := true, error := some "" } = _
    rw [(abortLive_fields s0).2.2.1]
  have hs1m : s1.mounted = true := by
    rw [hstep]
    show (abortLive s0).mounted = true
    rw [(abortLive_fields s0).2.2.2]; exact hm
  have hnab : n ∉ s1.aborted := by
    rw [hs1a]
    intro hc
    have hlt := (inv_abortLive s0 hInv).2.1 n hc
    rw [(abortLive_fields s0).2.1] at hlt
    exact Nat.lt_irrefl n hlt
  have hn1p : n ∈ s1.pending := by rw [hs1p]; exact List.mem_cons_self n _
  have hcomp : (stepSys s1 (Event.complete n r)).res = fetchMoviesSettle r s1.res := by
    simp [stepSys, hn1p, hnab, hs1m]
  have hfail := fetchMoviesSettle_failing r s1.res hr
  refine ⟨?_, hfail.2⟩
  rw [hcomp, hfail.1, hs1r]

/-- Witness for the amended C2: from a fresh controller, query "abcd"
completes with the provider's "not found" payload. -/
theorem useMovies_failed_lookup_sets_error_witness :
    (stepSys (stepSys (runSys initSys []) (Event.queryChange "abcd"))
        (Event.complete (runSys initSys []).nextId
          (Except.ok ⟨true, "False", []⟩))).res =
      { movies := (runSys initSys []).res.movies
        isLoading := false
        error := some (failMsg (Except.ok ⟨true, "False", []⟩)) } ∧
    failMsg (Except.ok ⟨true, "False", []⟩) ≠ "" :=
  useMovies_failed_lookup_sets_error [] "abcd" (Except.ok ⟨true, "False", []⟩)
    (by decide) (by decide) (Or.inr rfl)

/-- C3: the effect run for a query shorter than three characters clears the
movie list, sets the error to the empty string, and issues no request
(pending set and generation counter untouched, no live request), whatever
the prior state was. -/
theorem useMovies_short_query_idle (s : Sys) (q : String)
    (hm : s.mounted = true) (hq : q.length < 3) :
    (stepSys s (Event.queryChange q)).res.movies = [] ∧
    (stepSys s (Event.queryChange q)).res.error = some "" ∧
    (stepSys s (Event.queryChange q)).pending = s.pending ∧
    (stepSys s (Event.queryChange q)).nextId = s.nextId ∧
    (stepSys s (Event.queryChange q)).live = none := by
  rw [stepSys_query_short s q hm hq]
  exact ⟨rfl, rfl, (abortLive_fields s).1, (abortLive_fields s).2.1,
    abortLive_live s⟩

/-- Witness for C3: a two-character query on a state showing results and an
error. -/
theorem useMovies_short_query_idle_witness :
    (stepSys ⟨⟨[inception], false, some "old"⟩, 3, none, [], [2], true⟩
        (Event.queryChange "ab")).res.movies = [] ∧
    (stepSys ⟨⟨[inception], false, some "old"⟩, 3, none, [], [2], true⟩
        (Event.queryChange "ab")).res.error = some "" ∧
    (stepSys ⟨⟨[inception], false, some "old"⟩, 3, none, [], [2], true⟩
        (Event.queryChange "ab")).pending = [] ∧
    (stepSys ⟨⟨[inception], false, some "old"⟩, 3, none, [], [2], true⟩
        (Event.queryChange "ab")).nextId = 3 ∧
    (stepSys ⟨⟨[inception], false, some "old"⟩, 3, none, [], [2], true⟩
        (Event.queryChange "ab")).live = none :=
  useMovies_short_query_idle ⟨⟨[inception], false, some "old"⟩, 3, none, [], [2], true⟩
    "ab" rfl (by decide)

/-- C4: tearing the controller down runs the cleanup, which aborts the live
request, and no completion arriving afterwards mutates the (now destroyed)
hook state in any component. -/
theorem useMovies_teardown_no_mutation (es cs : List Event)
    (hcs : ∀ e ∈ cs, isCompleteEv e = true) :
    (runSys (stepSys (runSys initSys es) Event.teardown) cs).res =
      (runSys initSys es).res ∧
    (∀ n, (runSys initSys es).live = some n →
      n ∈ (stepSys (runSys initSys es) Event.teardown).aborted) := by
  set s0 := runSys initSys es with hs0def
  have hres : (stepSys s0 Event.teardown).res = s0.res := by
    show (abortLive s0).res = s0.res
    exact (abortLive_fields s0).2.2.1
  have hmf : (stepSys s0 Event.teardown).mounted = false := rfl
  constructor
  · rw [unmounted_run cs (stepSys s0 Event.teardown) hmf hcs]
    exact hres
  · intro n hn
    show n ∈ (abortLive s0).aborted
    unfold abortLive
    rw [hn]
    exact List.mem_cons_self n _

/-- Witness for C4: teardown happens while the request of query "abcd" is
in flight; its (intact) response arrives after unmount and changes
nothing. -/
theorem useMovies_teardown_no_mutation_witness :
    (runSys (stepSys (runSys initSys [Event.queryChange "abcd"]) Event.teardown)
        [Event.complete 0 (Except.ok ⟨true, "True", [inception]⟩)]).res =
      (runSys initSys [Event.queryChange "abcd"]).res ∧
    (∀ n, (runSys initSys [Event.queryChange "abcd"]).live = some n →
      n ∈ (stepSys (runSys initSys [Event.queryChange "abcd"]) Event.teardown).aborted) :=
  useMovies_teardown_no_mutation [Event.queryChange "abcd"]
    [Event.complete 0 (Except.ok ⟨true, "True", [inception]⟩)] (by decide)

/-- C5: the completion of a request whose controller was aborted never
writes `error` (the `AbortError` is discarded by the name check) and never
writes `movies` — no transition to `Error` or `Success` on its behalf. -/
theorem useMovies_cancelled_completion_silent (s : Sys) (i : Nat)
    (r : FetchResult) (h : i ∈ s.aborted) :
    (stepSys s (Event.complete i r)).res.error = s.res.error ∧
    (stepSys s (Event.complete i r)).res.movies = s.res.movies := by
  rw [stepSys_complete_aborted s i r h]
  by_cases hc : i ∈ s.pending ∧ s.mounted = true <;> simp [hc]

/-- Witness for C5: an aborted in-flight request completes while the state
shows the successor query loading; error and movies are untouched. -/
theorem useMovies_cancelled_completion_silent_witness :
    (stepSys ⟨⟨[], true, some ""⟩, 2, some 1, [1, 0], [0], true⟩
        (Event.complete 0 (Except.ok ⟨true, "True", [inception]⟩))).res.error =
      (⟨⟨[], true, some ""⟩, 2, some 1, [1, 0], [0], true⟩ : Sys).res.error ∧
    (stepSys ⟨⟨[], true, some ""⟩, 2, some 1, [1, 0], [0], true⟩
        (Event.complete 0 (Except.ok ⟨true, "True", [inception]⟩))).res.movies =
      (⟨⟨[], true, some ""⟩, 2, some 1, [1, 0], [0], true⟩ : Sys).res.movies :=
  useMovies_cancelled_completion_silent
    ⟨⟨[], true, some ""⟩, 2, some 1, [1, 0], [0], true⟩ 0
    (Except.ok ⟨true, "True", [inception]⟩) (by decide)

/-- C6: a completed lookup whose payload carries the provider's
`Response: "False"` convention transitions to `Error("Movie not found")`;
`setMovies` is never reached, so this is not a `Success` with an empty
list. -/
theorem useMovies_not_found_is_error (s : ResultState) (resp : OmdbResponse)
    (hok : resp.ok = true) (hnf : resp.Response = "False") :
    fetchMoviesSettle (Except.ok resp) s =
      { s with error := some "Movie not found", isLoading := false } ∧
    (fetchMoviesSettle (Except.ok resp) s).movies = s.movies := by
  have hok' : ¬ resp.ok = false := by rw [hok]; simp
  constructor <;> simp [fetchMoviesSettle, catchFinally, hok', hnf]

/-- Witness for C6: an ok response with `Response: "False"` over the
loading state. -/
theorem useMovies_not_found_is_error_witness :
    fetchMoviesSettle (Except.ok ⟨true, "False", []⟩) ⟨[], true, some ""⟩ =
      { (⟨[], true, some ""⟩ : ResultState) with
        error := some "Movie not found", isLoading := false } ∧
    (fetchMoviesSettle (Except.ok ⟨true, "False", []⟩)
        ⟨[], true, some ""⟩).movies = ([] : List SearchMovie) :=
  useMovies_not_found_is_error ⟨[], true, some ""⟩ ⟨true, "False", []⟩ rfl rfl

/-- C7 counterexample: query "abcd" is superseded by "abcz", so request 0's
token is invalidated; its completion (even carrying an intact successful
response) still mutates the hook state — the `finally` clause flips
`isLoading` from `true` to `false` while the live request is in flight.
The claim that no mutation of `ResultState` occurs is therefore false. -/
theorem useMovies_stale_completion_mutates_counterexample :
    0 ∈ (runSys initSys [Event.queryChange "abcd", Event.queryChange "abcz"]).aborted ∧
    (runSys initSys [Event.queryChange "abcd", Event.queryChange "abcz"]).res.isLoading = true ∧
    (stepSys (runSys initSys [Event.queryChange "abcd", Event.queryChange "abcz"])
        (Event.complete 0 (Except.ok ⟨true, "True", [inception]⟩))).res ≠
      (runSys initSys [Event.queryChange "abcd", Event.queryChange "abcz"]).res := by
  decide

/-- C7 amended: a late completion of a request whose token was invalidated
never writes `movies` or `error` and never produces a `Success` or `Error`
transition — even when the carried result is an intact response — but it
is not entirely ignored: its `finally` clause clears `isLoading` (when the
request was still pending and the component mounted); nothing else
changes. -/
theorem useMovies_stale_completion_only_clears_loading (s : Sys) (i : Nat)
    (r : FetchResult) (h : i ∈ s.aborted) :
    (stepSys s (Event.complete i r)).res =
      if i ∈ s.pending ∧ s.mounted = true then { s.res with isLoading := false }
      else s.res :=
  stepSys_complete_aborted s i r h

/-- Witness for the amended C7: the invalidated request 0 completes with an
intact successful response; only the loading flag is cleared. -/
theorem useMovies_stale_completion_only_clears_loading_witness :
    (stepSys ⟨⟨[], true, some ""⟩, 2, some 1, [1, 0], [0], true⟩
        (Event.complete 0 (Except.ok ⟨true, "True", [inception]⟩))).res =
      if (0 : Nat) ∈ ([1, 0] : List Nat) ∧ true = true then
        { (⟨[], true, some ""⟩ : ResultState) with isLoading := false }
      else ⟨[], true, some ""⟩ :=
  useMovies_stale_completion_only_clears_loading
    ⟨⟨[], true, some ""⟩, 2, some 1, [1, 0], [0], true⟩ 0
    (Except.ok ⟨true, "True", [inception]⟩) (by decide)

theorem digitChar_facts : ∀ d, d < 10 →
    (digitChar d).toNat = 48 + d ∧ isDigitCh (digitChar d) = true ∧
    digitChar d ≠ 'n' ∧ digitChar d ≠ 't' ∧ digitChar d ≠ 'f' ∧
    digitChar d ≠ '"' ∧ digitChar d ≠ '[' ∧ digitChar d ≠ '\x7b' ∧
    digitChar d ≠ '-' ∧ digitChar d ≠ ']' ∧ digitChar d ≠ ',' ∧
    digitChar d ≠ '\x7d' := by decide

theorem hexVal_hexDigitChar : ∀ x, x < 16 → hexVal (hexDigitChar x) = some x := by
  decide

theorem natToCharsAux_digits : ∀ (fuel n : Nat) (acc : List Char),
    0 < n → n < fuel →
    natToCharsAux fuel n acc = ((Nat.digits 10 n).map digitChar).reverse ++ acc := by
  intro fuel
  induction fuel with
  | zero => intro n acc _ h; omega
  | succ f ih =>
    intro n acc hn hf
    rw [natToCharsAux]
    by_cases h10 : n < 10
    · rw [if_pos h10]
      rw [Nat.digits_def' (by norm_num : (1:ℕ) < 10) hn]
      rw [Nat.mod_eq_of_lt h10, Nat.div_eq_of_lt h10]
      simp
    · rw [if_neg h10]
      have hdiv_pos : 0 < n / 10 := Nat.div_pos (by omega) (by norm_num)
      have hdiv_lt : n / 10 < f := by
        have := Nat.div_lt_self (by omega : 0 < n) (by norm_num : 1 < 10)
        omega
      rw [ih (n / 10) (digitChar (n % 10) :: acc) hdiv_pos hdiv_lt]
      rw [Nat.digits_def' (by norm_num : (1:ℕ) < 10) hn]
      simp

theorem natToChars_zero : natToChars 0 = ['0'] := rfl

theorem natToChars_pos (n : Nat) (hn : 0 < n) :
    natToChars n = ((Nat.digits 10 n).reverse).map digitChar := by
  rw [natToChars, natToCharsAux_digits (n + 1) n [] hn (Nat.lt_succ_self n)]
  simp [List.map_reverse]

theorem msbDigits_spec (n : Nat) :
    natToChars n = (msbDigits n).map digitChar ∧ msbDigits n ≠ [] ∧
    (∀ d ∈ msbDigits n, d < 10) := by
  by_cases hn : n = 0
  · subst hn
    exact ⟨rfl, by simp [msbDigits], by simp [msbDigits]⟩
  · unfold msbDigits
    rw [if_neg hn]
    refine ⟨natToChars_pos n (Nat.pos_of_ne_zero hn), ?_, ?_⟩
    · simp [Nat.digits_ne_nil_iff_ne_zero, hn]
    · intro d hd
      rw [List.mem_reverse] at hd
      exact Nat.digits_lt_base (by norm_num) hd

theorem parseNatAcc_msb : ∀ (ds : List Nat) (fuel acc : Nat) (rest : List Char),
    (∀ d ∈ ds, d < 10) → ds.length < fuel → noDigitStart rest = true →
    parseNatAcc fuel (ds.map digitChar ++ rest) acc =
      (ds.foldl (fun a d => a * 10 + d) acc, rest) := by
  intro ds
  induction ds with
  | nil =>
    intro fuel acc rest _ hf hrest
    match fuel, hf with
    | f + 1, _ =>
      rw [List.map_nil, List.nil_append]
      match rest, hrest with
      | [], _ => rfl
      | c :: rest1, hrest =>
        have hc : isDigitCh c = false := by
          simpa [noDigitStart] using hrest
        simp [parseNatAcc, hc]
  | cons d ds ih =>
    intro fuel acc rest hds hf hrest
    match fuel, hf with
    | f + 1, hf =>
      have hd10 : d < 10 := hds d (List.mem_cons_self d ds)
      have hfacts := digitChar_facts d hd10
      rw [List.map_cons, List.cons_append]
      simp only [parseNatAcc, hfacts.2.1, hfacts.1, if_true]
      have h48 : 48 + d - 48 = d := by omega
      rw [h48]
      rw [ih f (acc * 10 + d) rest (fun x hx => hds x (List.mem_cons_of_mem d hx))
        (by simpa using Nat.lt_of_succ_lt_succ hf) hrest]
      rw [List.foldl_cons]

theorem foldr_ofDigits (l : List Nat) :
    l.foldr (fun d a => a * 10 + d) 0 = Nat.ofDigits 10 l := by
  induction l with
  | nil => rfl
  | cons d l ih =>
    rw [List.foldr_cons, ih, Nat.ofDigits_cons]
    ring

theorem foldl_msbDigits (n : Nat) :
    (msbDigits n).foldl (fun a d => a * 10 + d) 0 = n := by
  by_cases hn : n = 0
  · subst hn; rfl
  · unfold msbDigits
    rw [if_neg hn, List.foldl_reverse]
    have : (fun (x : Nat) (y : Nat) => y * 10 + x) =
        (fun (d : Nat) (a : Nat) => a * 10 + d) := rfl
    rw [this, foldr_ofDigits, Nat.ofDigits_digits]

theorem parseNatAcc_natToChars (n : Nat) (rest : List Char)
    (hrest : noDigitStart rest = true) :
    parseNatAcc ((natToChars n ++ rest).length + 1) (natToChars n ++ rest) 0 =
      (n, rest) := by
  obtain ⟨hser, hne, hlt⟩ := msbDigits_spec n
  rw [hser]
  rw [parseNatAcc_msb (msbDigits n) _ 0 rest hlt
    (by simp [List.length_append]; omega) hrest]
  rw [foldl_msbDigits]

theorem escChar_length_pos (c : Char) : 1 ≤ (escChar c).length := by
  unfold escChar
  split_ifs <;> simp

/-- Parsing back an escaped string body: the decoder inverts `escChar`
character by character up to the closing quote. -/
theorem parseStringBody_escape : ∀ (s : List Char) (fuel : Nat) (rest : List Char),
    (escapeChars s).length < fuel →
    parseStringBody fuel (escapeChars s ++ '"' :: rest) = some (s, rest) := by
  intro s
  induction s with
  | nil =>
    intro fuel rest hf
    match fuel, hf with
    | f + 1, _ => rfl
  | cons c s ih =>
    intro fuel rest hf
    have hsplit : escapeChars (c :: s) = escChar c ++ escapeChars s := rfl
    rw [hsplit] at hf ⊢
    have hlen : (escapeChars s).length + 1 ≤ fuel := by
      have := escChar_length_pos c
      rw [List.length_append] at hf
      omega
    match fuel, hlen with
    | f + 1, _ =>
      have hihf : (escapeChars s).length < f := by
        have := escChar_length_pos c
        rw [List.length_append] at hf
        omega
      have hih := ih f rest hihf
      by_cases h1 : c = '"'
      · subst h1
        simp [escChar, parseStringBody, escDecode, hih]
      · by_cases h2 : c = '\\'
        · subst h2
          simp [escChar, parseStringBody, escDecode, hih]
        · by_cases h3 : c.toNat = 8
          · have hc : escChar c = ['\\', 'b'] := by simp [escChar, h1, h2, h3]
            have hcb : c = Char.ofNat 8 := by
              rw [← h3, Char.ofNat_toNat]
            rw [hc]
            simp [parseStringBody, escDecode, hih]
            exact hcb.symm
          · by_cases h4 : c.toNat = 9
            · have hc : escChar c = ['\\', 't'] := by simp [escChar, h1, h2, h3, h4]
              have hcb : c = Char.ofNat 9 := by rw [← h4, Char.ofNat_toNat]
              rw [hc]
              simp [parseStringBody, escDecode, hih]
              exact hcb.symm
            · by_cases h5 : c.toNat = 10
              · have hc : escChar c = ['\\', 'n'] := by
                  simp [escChar, h1, h2, h3, h4, h5]
                have hcb : c = Char.ofNat 10 := by rw [← h5, Char.ofNat_toNat]
                rw [hc]
                simp [parseStringBody, escDecode, hih]
                exact hcb.symm
              · by_cases h6 : c.toNat = 12
                · have hc : escChar c = ['\\', 'f'] := by
                    simp [escChar, h1, h2, h3, h4, h5, h6]
                  have hcb : c = Char.ofNat 12 := by rw [← h6, Char.ofNat_toNat]
                  rw [hc]
                  simp [parseStringBody, escDecode, hih]
                  exact hcb.symm
                · by_cases h7 : c.toNat = 13
                  · have hc : escChar c = ['\\', 'r'] := by
                      simp [escChar, h1, h2, h3, h4, h5, h6, h7]
                    have hcb : c = Char.ofNat 13 := by rw [← h7, Char.ofNat_toNat]
                    rw [hc]
                    simp [parseStringBody, escDecode, hih]
                    exact hcb.symm
                  · by_cases h8 : c.toNat < 32
                    · have hc : escChar c = ['\\', 'u', '0', '0',
                          hexDigitChar (c.toNat / 16), hexDigitChar (c.toNat % 16)] := by
                        simp [escChar, h1, h2, h3, h4, h5, h6, h7, h8]
                      rw [hc]
                      have hdiv : c.toNat / 16 < 16 := by omega
                      have hmod : c.toNat % 16 < 16 := by omega
                      have hhd := hexVal_hexDigitChar _ hdiv
                      have hhm := hexVal_hexDigitChar _ hmod
                      have hcode : c.toNat / 16 * 16 + c.toNat % 16 = c.toNat := by
                        omega
                      have h0 : hexVal '0' = some 0 := by decide
                      simp [parseStringBody, hhd, hhm, hih, hcode, h0]
                    · have hc : escChar c = [c] := by
                        simp [escChar, h1, h2, h3, h4, h5, h6, h7, h8]
                      rw [hc]
                      simp [parseStringBody, h1, h2, hih]

theorem parseString_escape (s rest : List Char) :
    parseString (escapeChars s ++ '"' :: rest) = some (s, rest) := by
  unfold parseString
  apply parseStringBody_escape
  rw [List.length_append, List.length_cons]
  omega

theorem jsize_pos : ∀ v : Json, 1 ≤ jsize v := by
  intro v
  cases v <;> simp [jsize] <;> omega

theorem natToChars_head : ∀ n : Nat, ∃ d tl0, natToChars n = digitChar d :: tl0 ∧
    d < 10 := by
  intro n
  obtain ⟨hser, hne, hlt⟩ := msbDigits_spec n
  cases hmsb : msbDigits n with
  | nil => exact absurd hmsb hne
  | cons d ds =>
    refine ⟨d, ds.map digitChar, ?_, hlt d (by rw [hmsb]; exact List.mem_cons_self d ds)⟩
    rw [hser, hmsb, List.map_cons]

theorem jsonToChars_shape : ∀ v : Json, ∃ c0 tl, jsonToChars v = c0 :: tl ∧
    c0 ≠ ']' ∧ c0 ≠ ',' ∧ c0 ≠ '\x7d' := by
  intro v
  cases v with
  | num n =>
    by_cases hn : n < 0
    · refine ⟨'-', natToChars n.natAbs, ?_, ?_, ?_, ?_⟩ <;> try decide
      show intToChars n = _
      rw [intToChars, if_pos hn]
    · obtain ⟨d, tl0, hEq, hd10⟩ := natToChars_head n.toNat
      have hfacts := digitChar_facts d hd10
      refine ⟨digitChar d, tl0, ?_, hfacts.2.2.2.2.2.2.2.2.2.1,
        hfacts.2.2.2.2.2.2.2.2.2.2.1, hfacts.2.2.2.2.2.2.2.2.2.2.2⟩
      show intToChars n = _
      rw [intToChars, if_neg hn, hEq]
  | bool b =>
    cases b with
    | false => refine ⟨'f', _, rfl, ?_, ?_, ?_⟩ <;> decide
    | true => refine ⟨'t', _, rfl, ?_, ?_, ?_⟩ <;> decide
  | null => refine ⟨'n', _, rfl, ?_, ?_, ?_⟩ <;> decide
  | str s => refine ⟨'"', _, rfl, ?_, ?_, ?_⟩ <;> decide
  | arr es => refine ⟨'[', _, rfl, ?_, ?_, ?_⟩ <;> decide
  | obj fs => refine ⟨'\x7b', _, rfl, ?_, ?_, ?_⟩ <;> decide

theorem jsonToChars_length_pos (v : Json) : 1 ≤ (jsonToChars v).length := by
  obtain ⟨c0, tl, hEq, _⟩ := jsonToChars_shape v
  rw [hEq]
  simp

/-- Serialized sizes bound the parser fuel: `jsize v` never exceeds twice
the length of the serialization (so `jfuel` suffices for `jparse`). -/
theorem sizes_le : ∀ N : Nat,
    (∀ v : Json, jsize v ≤ N → jsize v + 1 ≤ 2 * (jsonToChars v).length) ∧
    (∀ es : JsonList, es ≠ JsonList.nil → lsize es ≤ N →
      lsize es ≤ 2 * (elemsToChars es).length) ∧
    (∀ fs : JsonFields, fs ≠ JsonFields.nil → fsize fs ≤ N →
      fsize fs ≤ 2 * (fieldsToChars fs).length) := by
  intro N
  induction N using Nat.strong_induction_on with
  | _ N ih =>
    refine ⟨?_, ?_, ?_⟩
    · intro v hN
      cases v with
      | null => simp [jsize, jsonToChars]
      | bool b => cases b <;> simp [jsize, jsonToChars]
      | num n =>
        have h1 : 1 ≤ (jsonToChars (Json.num n)).length :=
          jsonToChars_length_pos (Json.num n)
        simp only [jsize]
        omega
      | str s =>
        show 1 + 1 ≤ 2 * ('"' :: (escapeChars s.data ++ ['"'])).length
        simp only [List.length_cons, List.length_append, List.length_singleton]
        omega
      | arr es =>
        cases es with
        | nil => simp [jsize, jsonToChars, elemsToChars, lsize]
        | cons e tl =>
          have hlsz : lsize (JsonList.cons e tl) < N := by
            have := hN
            simp only [jsize] at this
            omega
          have h2 := (ih _ hlsz).2.1 (JsonList.cons e tl) (by intro h; cases h) le_rfl
          show 2 + lsize (JsonList.cons e tl) + 1 ≤
            2 * ('[' :: (elemsToChars (JsonList.cons e tl) ++ [']'])).length
          simp only [List.length_cons, List.length_append, List.length_singleton]
          omega
      | obj fs =>
        cases fs with
        | nil => simp [jsize, jsonToChars, fieldsToChars, fsize]
        | cons k v tl =>
          have hfsz : fsize (JsonFields.cons k v tl) < N := by
            have := hN
            simp only [jsize] at this
            omega
          have h2 := (ih _ hfsz).2.2 (JsonFields.cons k v tl) (by intro h; cases h) le_rfl
          show 2 + fsize (JsonFields.cons k v tl) + 1 ≤
            2 * ('\x7b' :: (fieldsToChars (JsonFields.cons k v tl) ++ ['\x7d'])).length
          simp only [List.length_cons, List.length_append, List.length_singleton]
          omega
    · intro es hne hN
      cases es with
      | nil => exact absurd rfl hne
      | cons e tl =>
        cases tl with
        | nil =>
          have hje : jsize e < N := by
            simp only [lsize] at hN
            have := jsize_pos e
            omega
          have h1 := (ih _ hje).1 e le_rfl
          show 1 + jsize e + lsize JsonList.nil ≤ 2 * (jsonToChars e).length
          simp only [lsize]
          omega
        | cons e2 tl2 =>
          have hje : jsize e < N := by
            simp only [lsize] at hN
            have := jsize_pos e
            have := jsize_pos e2
            omega
          have htl : lsize (JsonList.cons e2 tl2) < N := by
            simp only [lsize] at hN ⊢
            have := jsize_pos e
            omega
          have h1 := (ih _ hje).1 e le_rfl
          have h2 := (ih _ htl).2.1 (JsonList.cons e2 tl2) (by intro h; cases h) le_rfl
          show 1 + jsize e + lsize (JsonList.cons e2 tl2) ≤
            2 * (jsonToChars e ++ ',' :: elemsToChars (JsonList.cons e2 tl2)).length
          simp only [List.length_append, List.length_cons]
          omega
    · intro fs hne hN
      cases fs with
      | nil => exact absurd rfl hne
      | cons k v tl =>
        cases tl with
        | nil =>
          have hjv : jsize v < N := by
            simp only [fsize] at hN
            have := jsize_pos v
            omega
          have h1 := (ih _ hjv).1 v le_rfl
          show 1 + jsize v + fsize JsonFields.nil ≤
            2 * ('"' :: (escapeChars k.data ++ '"' :: ':' :: jsonToChars v)).length
          simp only [fsize, List.length_cons, List.length_append]
          omega
        | cons k2 v2 tl2 =>
          have hjv : jsize v < N := by
            simp only [fsize] at hN
            have := jsize_pos v
            have := jsize_pos v2
            omega
          have htl : fsize (JsonFields.cons k2 v2 tl2) < N := by
            simp only [fsize] at hN ⊢
            have := jsize_pos v
            omega
          have h1 := (ih _ hjv).1 v le_rfl
          have h2 := (ih _ htl).2.2 (JsonFields.cons k2 v2 tl2) (by intro h; cases h) le_rfl
          show 1 + jsize v + fsize (JsonFields.cons k2 v2 tl2) ≤
            2 * (('"' :: (escapeChars k.data ++ '"' :: ':' :: jsonToChars v)) ++
              ',' :: fieldsToChars (JsonFields.cons k2 v2 tl2)).length
          simp only [List.length_append, List.length_cons]
          omega

theorem parseVal_quote (f : Nat) (cs1 : List Char) :
    parseVal (f+1) ('"' :: cs1) =
      match parseString cs1 with
      | some (s2, r) => some (Json.str ⟨s2⟩, r)
      | none => none := rfl

theorem parseVal_dash (f : Nat) (cs1 : List Char) :
    parseVal (f+1) ('-' :: cs1) =
      match cs1 with
      | d :: _ =>
        if isDigitCh d then
          match parseNatAcc (cs1.length + 1) cs1 0 with
          | (m, r) => some (Json.num (-(m : Int)), r)
        else none
      | [] => none := rfl

theorem parseVal_lbracket (f : Nat) (d : Char) (tl : List Char) :
    parseVal (f+1) ('[' :: d :: tl) =
      if d = ']' then some (Json.arr JsonList.nil, tl)
      else
        match parseElemsAux (parseVal f) f (d :: tl) with
        | some (es, r) => some (Json.arr es, r)
        | none => none := rfl

theorem parseVal_lbrace (f : Nat) (d : Char) (tl : List Char) :
    parseVal (f+1) ('\x7b' :: d :: tl) =
      if d = '\x7d' then some (Json.obj JsonFields.nil, tl)
      else
        match parseFieldsAux (parseVal f) f (d :: tl) with
        | some (fs, r) => some (Json.obj fs, r)
        | none => none := rfl

/-- Array-element loop round-trip, parametric in the guarantee `hp` of the
value parser it is given. -/
theorem parseElemsAux_rt (fuelV B : Nat)
    (hp : ∀ (e : Json) (rest2 : List Char), jsize e ≤ B →
      noDigitStart rest2 = true →
      parseVal fuelV (jsonToChars e ++ rest2) = some (e, rest2)) :
    ∀ (fuelLoop : Nat) (es : JsonList) (rest : List Char),
      es ≠ JsonList.nil → lsize es ≤ fuelLoop → lsize es ≤ B + 1 →
      parseElemsAux (parseVal fuelV) fuelLoop (elemsToChars es ++ ']' :: rest) =
        some (es, rest) := by
  intro fuelLoop
  induction fuelLoop using Nat.strong_induction_on with
  | _ fuelLoop ihf =>
    intro es rest hne hfl hB
    cases es with
    | nil => exact absurd rfl hne
    | cons e tl =>
      have hep := jsize_pos e
      have hflpos : 1 ≤ fuelLoop := by
        simp only [lsize] at hfl
        omega
      match fuelLoop, hflpos, hfl, ihf with
      | fl + 1, _, hfl, ihf =>
        cases tl with
        | nil =>
          have hje : jsize e ≤ B := by
            simp only [lsize] at hB
            omega
          have hpe := hp e (']' :: rest) hje rfl
          show parseElemsAux (parseVal fuelV) (fl + 1)
            (jsonToChars e ++ ']' :: rest) = _
          simp [parseElemsAux, hpe]
        | cons e2 tl2 =>
          have hje : jsize e ≤ B := by
            simp only [lsize] at hB
            have := jsize_pos e2
            omega
          have hsplit : elemsToChars (JsonList.cons e (JsonList.cons e2 tl2)) ++
              ']' :: rest =
              jsonToChars e ++ ',' ::
                (elemsToChars (JsonList.cons e2 tl2) ++ ']' :: rest) := by
            show (jsonToChars e ++ ',' :: elemsToChars (JsonList.cons e2 tl2)) ++
              ']' :: rest = _
            rw [List.append_assoc, List.cons_append]
          rw [hsplit]
          have hpe := hp e
            (',' :: (elemsToChars (JsonList.cons e2 tl2) ++ ']' :: rest)) hje rfl
          have hihcall := ihf fl (Nat.lt_succ_self fl) (JsonList.cons e2 tl2) rest
            (by intro h; cases h)
            (by simp only [lsize] at hfl ⊢; omega)
            (by simp only [lsize] at hB ⊢; omega)
          simp [parseElemsAux, hpe, hihcall]

/-- Object-member loop round-trip, parametric in the guarantee `hp` of the
value parser it is given. -/
theorem parseFieldsAux_rt (fuelV B : Nat)
    (hp : ∀ (v : Json) (rest2 : List Char), jsize v ≤ B →
      noDigitStart rest2 = true →
      parseVal fuelV (jsonToChars v ++ rest2) = some (v, rest2)) :
    ∀ (fuelLoop : Nat) (fs : JsonFields) (rest : List Char),
      fs ≠ JsonFields.nil → fsize fs ≤ fuelLoop → fsize fs ≤ B + 1 →
      parseFieldsAux (parseVal fuelV) fuelLoop
          (fieldsToChars fs ++ '\x7d' :: rest) =
        some (fs, rest) := by
  intro fuelLoop
  induction fuelLoop using Nat.strong_induction_on with
  | _ fuelLoop ihf =>
    intro fs rest hne hfl hB
    cases fs with
    | nil => exact absurd rfl hne
    | cons k v tl =>
      have hvp := jsize_pos v
      have hflpos : 1 ≤ fuelLoop := by
        simp only [fsize] at hfl
        omega
      match fuelLoop, hflpos, hfl, ihf with
      | fl + 1, _, hfl, ihf =>
        cases tl with
        | nil =>
          have hjv : jsize v ≤ B := by
            simp only [fsize] at hB
            omega
          have hsplit : fieldsToChars (JsonFields.cons k v JsonFields.nil) ++
              '\x7d' :: rest =
              '"' :: (escapeChars k.data ++
                '"' :: ':' :: (jsonToChars v ++ '\x7d' :: rest)) := by
            show ('"' :: (escapeChars k.data ++ '"' :: ':' :: jsonToChars v)) ++
              '\x7d' :: rest = _
            simp [List.append_assoc]
          rw [hsplit]
          have hkey := parseString_escape k.data
            (':' :: (jsonToChars v ++ '\x7d' :: rest))
          have hpv := hp v ('\x7d' :: rest) hjv rfl
          simp [parseFieldsAux, hkey, hpv]
        | cons k2 v2 tl2 =>
          have hjv : jsize v ≤ B := by
            simp only [fsize] at hB
            have := jsize_pos v2
            omega
          have hsplit : fieldsToChars (JsonFields.cons k v (JsonFields.cons k2 v2 tl2)) ++
              '\x7d' :: rest =
              '"' :: (escapeChars k.data ++
                '"' :: ':' :: (jsonToChars v ++
                  ',' :: (fieldsToChars (JsonFields.cons k2 v2 tl2) ++
                    '\x7d' :: rest))) := by
            show (('"' :: (escapeChars k.data ++ '"' :: ':' :: jsonToChars v)) ++
              ',' :: fieldsToChars (JsonFields.cons k2 v2 tl2)) ++ '\x7d' :: rest = _
            simp [List.append_assoc]
          rw [hsplit]
          have hkey := parseString_escape k.data
            (':' :: (jsonToChars v ++
              ',' :: (fieldsToChars (JsonFields.cons k2 v2 tl2) ++ '\x7d' :: rest)))
          have hpv := hp v
            (',' :: (fieldsToChars (JsonFields.cons k2 v2 tl2) ++ '\x7d' :: rest))
            hjv rfl
          have hihcall := ihf fl (Nat.lt_succ_self fl) (JsonFields.cons k2 v2 tl2) rest
            (by intro h; cases h)
            (by simp only [fsize] at hfl ⊢; omega)
            (by simp only [fsize] at hB ⊢; omega)
          simp [parseFieldsAux, hkey, hpv, hihcall]

/-- Round-trip of the JSON value parser against the serializer, given
enough fuel and a continuation not starting with a digit. -/
theorem parseVal_roundtrip_aux : ∀ N : Nat,
    ∀ (v : Json) (fuel : Nat) (rest : List Char),
      jsize v ≤ N → jsize v ≤ fuel → noDigitStart rest = true →
      parseVal fuel (jsonToChars v ++ rest) = some (v, rest) := by
  intro N
  induction N using Nat.strong_induction_on with
  | _ N ih =>
    intro v fuel rest hN hfuel hrest
    have h1 : 1 ≤ jsize v := jsize_pos v
    match fuel, (by omega : 1 ≤ fuel) with
    | f + 1, _ =>
      cases v with
      | null => rfl
      | bool b => cases b <;> rfl
      | num n =>
        by_cases hn : n < 0
        · have hoi : jsonToChars (Json.num n) = '-' :: natToChars n.natAbs := by
            show intToChars n = _
            rw [intToChars, if_pos hn]
          rw [hoi, List.cons_append, parseVal_dash]
          obtain ⟨d, tl0, hEq, hd10⟩ := natToChars_head n.natAbs
          have hfacts := digitChar_facts d hd10
          have hnum := parseNatAcc_natToChars n.natAbs rest hrest
          rw [hEq, List.cons_append]
          simp only [hfacts.2.1, if_true]
          rw [← List.cons_append, ← hEq, hnum]
          have hval : (-(n.natAbs : Int)) = n := by omega
          rw [hval]
        · have hoi : jsonToChars (Json.num n) = natToChars n.toNat := by
            show intToChars n = _
            rw [intToChars, if_neg hn]
          obtain ⟨d, tl0, hEq, hd10⟩ := natToChars_head n.toNat
          have hfacts := digitChar_facts d hd10
          have hnum := parseNatAcc_natToChars n.toNat rest hrest
          rw [hoi, hEq, List.cons_append]
          simp only [parseVal]
          rw [if_neg hfacts.2.2.1, if_neg hfacts.2.2.2.1, if_neg hfacts.2.2.2.2.1,
            if_neg hfacts.2.2.2.2.2.1, if_neg hfacts.2.2.2.2.2.2.1,
            if_neg hfacts.2.2.2.2.2.2.2.1, if_neg hfacts.2.2.2.2.2.2.2.2.1]
          simp only [hfacts.2.1, if_true]
          rw [← List.cons_append, ← hEq, hnum]
          have hval : ((n.toNat : Int)) = n := by omega
          rw [hval]
      | str s =>
        have hform : jsonToChars (Json.str s) ++ rest =
            '"' :: (escapeChars s.data ++ '"' :: rest) := by
          show ('"' :: (escapeChars s.data ++ ['"'])) ++ rest = _
          simp [List.append_assoc]
        rw [hform, parseVal_quote, parseString_escape]
      | arr es =>
        cases es with
        | nil => rfl
        | cons e tl =>
          obtain ⟨c0, tl0, hhead, hc0r, _, _⟩ := jsonToChars_shape e
          have hX : ∃ X, elemsToChars (JsonList.cons e tl) = c0 :: X := by
            cases tl with
            | nil => exact ⟨tl0, by show jsonToChars e = _; rw [hhead]⟩
            | cons e2 tl2 =>
              refine ⟨tl0 ++ ',' :: elemsToChars (JsonList.cons e2 tl2), ?_⟩
              show jsonToChars e ++ ',' :: elemsToChars (JsonList.cons e2 tl2) = _
              rw [hhead, List.cons_append]
          obtain ⟨X, hXeq⟩ := hX
          have hform : jsonToChars (Json.arr (JsonList.cons e tl)) ++ rest =
              '[' :: c0 :: (X ++ ']' :: rest) := by
            show ('[' :: (elemsToChars (JsonList.cons e tl) ++ [']'])) ++ rest = _
            rw [hXeq]
            simp [List.append_assoc]
          rw [hform, parseVal_lbracket, if_neg hc0r]
          have hback : c0 :: (X ++ ']' :: rest) =
              elemsToChars (JsonList.cons e tl) ++ ']' :: rest := by
            rw [hXeq, List.cons_append]
          rw [hback]
          have hsz : lsize (JsonList.cons e tl) + 2 ≤ f + 1 := by
            simp only [jsize] at hfuel
            omega
          have hp : ∀ (e' : Json) (rest2 : List Char),
              jsize e' ≤ lsize (JsonList.cons e tl) → noDigitStart rest2 = true →
              parseVal f (jsonToChars e' ++ rest2) = some (e', rest2) := by
            intro e' rest2 hje' hr2
            apply ih (lsize (JsonList.cons e tl))
            · simp only [jsize] at hN
              omega
            · exact hje'
            · omega
            · exact hr2
          rw [parseElemsAux_rt f (lsize (JsonList.cons e tl)) hp
            f (JsonList.cons e tl) rest (by intro h; cases h) (by omega) (by omega)]
      | obj fs =>
        cases fs with
        | nil => rfl
        | cons k v tl =>
          have hX : ∃ X, fieldsToChars (JsonFields.cons k v tl) = '"' :: X := by
            cases tl with
            | nil =>
              exact ⟨escapeChars k.data ++ '"' :: ':' :: jsonToChars v, rfl⟩
            | cons k2 v2 tl2 =>
              refine ⟨(escapeChars k.data ++ '"' :: ':' :: jsonToChars v) ++
                ',' :: fieldsToChars (JsonFields.cons k2 v2 tl2), ?_⟩
              show ('"' :: (escapeChars k.data ++ '"' :: ':' :: jsonToChars v)) ++
                ',' :: fieldsToChars (JsonFields.cons k2 v2 tl2) = _
              rw [List.cons_append]
          obtain ⟨X, hXeq⟩ := hX
          have hform : jsonToChars (Json.obj (JsonFields.cons k v tl)) ++ rest =
              '\x7b' :: '"' :: (X ++ '\x7d' :: rest) := by
            show ('\x7b' :: (fieldsToChars (JsonFields.cons k v tl) ++ ['\x7d'])) ++
              rest = _
            rw [hXeq]
            simp [List.append_assoc]
          rw [hform, parseVal_lbrace, if_neg (by decide : ¬('"' : Char) = '\x7d')]
          have hback : ('"' : Char) :: (X ++ '\x7d' :: rest) =
              fieldsToChars (JsonFields.cons k v tl) ++ '\x7d' :: rest := by
            rw [hXeq, List.cons_append]
          rw [hback]
          have hsz : fsize (JsonFields.cons k v tl) + 2 ≤ f + 1 := by
            simp only [jsize] at hfuel
            omega
          have hp : ∀ (v' : Json) (rest2 : List Char),
              jsize v' ≤ fsize (JsonFields.cons k v tl) → noDigitStart rest2 = true →
              parseVal f (jsonToChars v' ++ rest2) = some (v', rest2) := by
            intro v' rest2 hjv' hr2
            apply ih (fsize (JsonFields.cons k v tl))
            · simp only [jsize] at hN
              omega
            · exact hjv'
            · omega
            · exact hr2
          rw [parseFieldsAux_rt f (fsize (JsonFields.cons k v tl)) hp
            f (JsonFields.cons k v tl) rest (by intro h; cases h) (by omega) (by omega)]

theorem parseVal_roundtrip (v : Json) (fuel : Nat) (rest : List Char)
    (hfuel : jsize v ≤ fuel) (hrest : noDigitStart rest = true) :
    parseVal fuel (jsonToChars v ++ rest) = some (v, rest) :=
  parseVal_roundtrip_aux (jsize v) v fuel rest le_rfl hfuel hrest

/-- Round-trip of the JSON serializer against the parser at `jparse`'s own
fuel, with full input consumption. -/
theorem jparse_jstringify (v : Json) : jparse (jstringify v) = some v := by
  unfold jparse jstringify jfuel
  have hsize := (sizes_le (jsize v)).1 v le_rfl
  have h := parseVal_roundtrip v (2 * (jsonToChars v).length + 1) [] (by omega) rfl
  rw [List.append_nil] at h
  show (match parseVal (2 * (jsonToChars v).length + 1) (jsonToChars v) with
    | some (w, []) => some w
    | _ => none) = some v
  rw [h]

/-- C8: persisting an array value through `useLocalStorage` stores
`JSON.stringify([...v])` under the key, and the lazy initializer reads it
back with `JSON.parse`, so storing then re-initializing with the same key
yields the same array; when nothing is stored under the key the
initializer returns the supplied `initialState`. -/
theorem useLocalStorage_persist_roundtrip (store : String → Option String)
    (key : String) (v : JsonList) (initialState : Json) :
    useLocalStorageInit (useLocalStoragePersist store key v) key initialState =
      some (Json.arr v) ∧
    (store key = none →
      useLocalStorageInit store key initialState = some initialState) := by
  constructor
  · have hlookup : useLocalStoragePersist store key v key =
        some (jstringify (Json.arr v)) := by
      unfold useLocalStoragePersist setItem
      rw [if_pos rfl]
    have hne : jstringify (Json.arr v) ≠ "" := by
      intro hc
      have hdata : jsonToChars (Json.arr v) = [] := congrArg String.data hc
      obtain ⟨c0, tl, hEq, _⟩ := jsonToChars_shape (Json.arr v)
      rw [hEq] at hdata
      cases hdata
    unfold useLocalStorageInit
    rw [hlookup]
    show (if jstringify (Json.arr v) = "" then some initialState
      else jparse (jstringify (Json.arr v))) = some (Json.arr v)
    rw [if_neg hne]
    exact jparse_jstringify (Json.arr v)
  · intro h
    unfold useLocalStorageInit
    rw [h]

/-- Witness for C8: a one-movie watched list persisted under "watched"
round-trips, and an empty store yields the initial state. -/
theorem useLocalStorage_persist_roundtrip_witness :
    useLocalStorageInit
        (useLocalStoragePersist (fun _ => none) "watched" watchedSample)
        "watched" (Json.arr JsonList.nil) =
      some (Json.arr watchedSample) ∧
    useLocalStorageInit (fun _ => none) "watched" (Json.arr JsonList.nil) =
      some (Json.arr JsonList.nil) :=
  ⟨(useLocalStorage_persist_roundtrip (fun _ => none) "watched" watchedSample
      (Json.arr JsonList.nil)).1,
    (useLocalStorage_persist_roundtrip (fun _ => none) "watched" watchedSample
      (Json.arr JsonList.nil)).2 rfl⟩

theorem foldl_add_div (l : List ℚ) : ∀ (acc c : ℚ),
    l.foldl (fun a x => a + x / c) acc = acc + l.sum / c := by
  induction l with
  | nil => intro acc c; simp
  | cons x l ih =>
    intro acc c
    rw [List.foldl_cons, ih, List.sum_cons, add_div]
    ring

/-- C9: `average` of the empty list is `0` (the `reduce` starts from the
initial accumulator `0` and performs no division), and of a non-empty list
is the sum divided by the length; consequently the averages shown by
`WatchedSummary` are well defined on an empty watched list. -/
theorem average_spec (l : List ℚ) :
    (l = [] → average l = 0) ∧
    (l ≠ [] → average l = l.sum / (l.length : ℚ)) ∧
    avgImdbRating [] = 0 ∧ avgUserRating [] = 0 := by
  refine ⟨?_, ?_, rfl, rfl⟩
  · intro h; rw [h]; rfl
  · intro _
    unfold average
    rw [foldl_add_div]
    ring

/-- Witness for C9: the averages of `[1, 2, 3]` and of the empty list. -/
theorem average_spec_witness :
    average [(1 : ℚ), 2, 3] =
      ([(1 : ℚ), 2, 3].sum / (([(1 : ℚ), 2, 3].length : ℕ) : ℚ)) ∧
    average ([] : List ℚ) = 0 :=
  ⟨(average_spec [(1 : ℚ), 2, 3]).2.1 (by simp),
    (average_spec ([] : List ℚ)).1 rfl⟩

/-- C10: `handleDeleteWatched id` keeps exactly the entries whose `imdbID`
differs from `id`, in their original order and unchanged (the result is a
sublist of the input), and entries with a non-matching `imdbID` are never
removed (their multiplicity is preserved). -/
theorem handleDeleteWatched_spec (id : String) (l : List WatchedMovie) :
    (handleDeleteWatched id l).Sublist l ∧
    (∀ m, m ∈ handleDeleteWatched id l ↔ (m ∈ l ∧ m.imdbID ≠ id)) ∧
    (∀ m, m.imdbID ≠ id →
      (handleDeleteWatched id l).count m = l.count m) ∧
    (∀ m, m.imdbID = id → (handleDeleteWatched id l).count m = 0) := by
  refine ⟨List.filter_sublist l, ?_, ?_, ?_⟩
  · intro m
    rw [handleDeleteWatched, List.mem_filter, bne_iff_ne]
  · intro m hm
    exact List.count_filter (by simpa using hm)
  · intro m hm
    rw [List.count_eq_zero]
    intro hc
    rw [handleDeleteWatched, List.mem_filter, bne_iff_ne] at hc
    exact hc.2 hm

/-- Witness for C10: deleting id "a" from a two-element list keeps the
non-matching entry with its multiplicity and drops the matching one. -/
theorem handleDeleteWatched_spec_witness :
    ((handleDeleteWatched "a"
        [⟨"a", "t", "y", "p", 5, 5, "100", 0⟩, ⟨"b", "u", "z", "q", 6, 7, "90", 1⟩]).count
      ⟨"b", "u", "z", "q", 6, 7, "90", 1⟩ =
      ([⟨"a", "t", "y", "p", 5, 5, "100", 0⟩,
        ⟨"b", "u", "z", "q", 6, 7, "90", 1⟩] : List WatchedMovie).count
        ⟨"b", "u", "z", "q", 6, 7, "90", 1⟩) ∧
    ((handleDeleteWatched "a"
        [⟨"a", "t", "y", "p", 5, 5, "100", 0⟩, ⟨"b", "u", "z", "q", 6, 7, "90", 1⟩]).count
      ⟨"a", "t", "y", "p", 5, 5, "100", 0⟩ = 0) :=
  ⟨(handleDeleteWatched_spec "a"
      [⟨"a", "t", "y", "p", 5, 5, "100", 0⟩, ⟨"b", "u", "z", "q", 6, 7, "90", 1⟩]).2.2.1
    ⟨"b", "u", "z", "q", 6, 7, "90", 1⟩ (by decide),
   (handleDeleteWatched_spec "a"
      [⟨"a", "t", "y", "p", 5, 5, "100", 0⟩, ⟨"b", "u", "z", "q", 6, 7, "90", 1⟩]).2.2.2
    ⟨"a", "t", "y", "p", 5, 5, "100", 0⟩ rfl⟩


end UsePopcorn
